import Mathlib

/-!
Verification of the SkydellMedical repository's client-side widgets.

Each definition in this file is a shallow embedding of a JavaScript function
from the repository's sources; file and line references are given in the doc
comments.  JavaScript numbers that only ever hold integral values are modelled
as `Int` (or `Nat` for counters), `null`/`undefined` as `Option`, thrown
exceptions and rejected promises as `Except`, and `Array.prototype.sort`
(stable since ES2019) as a stable insertion sort.
-/

namespace SkydellMedical

/-! ### A stable sort, modelling JavaScript `Array.prototype.sort`.

`le a b = true` means the comparator returns a non-positive value on `(a, b)`,
i.e. `a` may stay in front of `b`.  Insertion sort inserts each element in
front of the first element it is `le`-related to, which keeps the relative
order of elements the comparator ties, as the ECMAScript spec requires. -/

def insertSorted (le : α → α → Bool) (a : α) : List α → List α
  | [] => [a]
  | b :: bs => if le a b then a :: b :: bs else b :: insertSorted le a bs

def sortBy (le : α → α → Bool) : List α → List α
  | [] => []
  | a :: as => insertSorted le a (sortBy le as)

namespace Otp

/-! ### OTP verification form, `src/unnamed/part_000`.

The widget registers two `input` listeners on the `#otp_code` field: the first
(lines 19-27) strips non-digit characters and truncates the value to 6
characters, the second (lines 29-39) schedules a form submission when the value
has exactly 6 characters.  The `paste` listener (lines 42-55) replaces the
value by the pasted text stripped to at most 6 digits and schedules the same
submission when exactly 6 digits remain. -/

/-- Effect of `value.replace(/[^0-9]/g, '')` followed by
`value.substring(0, 6)` when longer than 6 characters (lines 21-26; the same
transformation `replace` + `substring(0, 6)` appears on line 45 of the paste
handler). -/
def sanitize (s : String) : String :=
  ((s.toList.filter Char.isDigit).take 6).asString

/-- The deferred submission scheduled by the auto-submit listeners: a 300 ms
`setTimeout` that disables the verify button and submits the form
(lines 33-37 and 49-53). -/
structure SubmitAction where
  delayMs : Nat
  verifyDisabled : Bool
deriving DecidableEq

/-- Combined effect of the two `input` listeners (lines 19-39): the field value
after the event, and the submission scheduled by the second listener, which
runs after the first and therefore sees the sanitized value. -/
def inputEvent (raw : String) : String × Option SubmitAction :=
  let v := sanitize raw
  (v, if v.length = 6 then some ⟨300, true⟩ else none)

/-- Effect of the `paste` listener (lines 42-55): the default insertion is
prevented and the whole value is replaced by `numericOnly`, the pasted text
stripped of non-digits and truncated to 6 characters; a submission is scheduled
iff `numericOnly` has exactly 6 characters. -/
def pasteEvent (pasted : String) : String × Option SubmitAction :=
  let numericOnly := sanitize pasted
  (numericOnly, if numericOnly.length = 6 then some ⟨300, true⟩ else none)

end Otp

namespace PaymentFee

/-! ### Payment fee widgets.

`PaymentFee._updatePaymentFee`
(`src/ox_website_sale_payment_fee/static/src/js/payment_fee.js`, lines 47-73)
and `PaymentPortalFee._updatePaymentFee` (`src/unnamed/part_002`, lines 55-77).
Both guard on the `_updatingFee` flag, set it, `await` one RPC and clear the
flag on every exit path.  The RPC is modelled as an `Except`: `.error` is a
rejected promise.  For the checkout widget the successful payload is reduced to
whether the JSON carried an `error` key (line 60); the portal widget ignores
the payload.  The returned `Bool` records whether the handler issued an RPC. -/

structure Widget where
  updatingFee : Bool
deriving DecidableEq

/-- `PaymentFee._updatePaymentFee` (payment_fee.js lines 47-73).  `rpcResult`
is the outcome of `rpc('/shop/payment/update_fee', ...)`: `.ok hasError` a
resolved response whose `result.error` is truthy iff `hasError`, `.error` a
rejection.  The result is `.ok` when the handler returns normally. -/
def updatePaymentFee (w : Widget) (rpcResult : Except Unit Bool) :
    Except Unit (Widget × Bool) :=
  if w.updatingFee then .ok (w, false)
  else
    match rpcResult with
    | .ok true => .ok ({ updatingFee := false }, true)
    | .ok false => .ok ({ updatingFee := false }, true)
    | .error _ => .ok ({ updatingFee := false }, true)

/-- `PaymentPortalFee._updatePaymentFee` (part_002 lines 55-77); same shape but
with no server-reported-error branch. -/
def portalUpdatePaymentFee (w : Widget) (rpcResult : Except Unit Unit) :
    Except Unit (Widget × Bool) :=
  if w.updatingFee then .ok (w, false)
  else
    match rpcResult with
    | .ok _ => .ok ({ updatingFee := false }, true)
    | .error _ => .ok ({ updatingFee := false }, true)

end PaymentFee

namespace DeliveryTracking

/-! ### Delivery tracking widget,
`src/ox_delivery_tracking/static/src/js/delivery_tracking.js`.

`OrderTrackingWidget._onDeliveryTracking` (lines 46-263) issues
`rpc("/tracking/details/update", ...)` and attaches only a `.then(...)`
callback — there is no `.catch` and no `try`/`catch` — so a rejected RPC
promise escapes the handler unhandled.  The `.then` callback branches on
`data.length > 0` (line 63) versus `data.length <= 0` (line 253). -/

structure TrackingUi where
  showDetails : Bool
  showNoRecords : Bool
  searchFormVisible : Bool
deriving DecidableEq

/-- Result of the submit handler installed by `_onDeliveryTracking` for one
form submission, as a function of the RPC outcome.  `records` abstracts the
JSON array returned by `/tracking/details/update` (only its length is
branched on).  A rejected RPC reaches no handler and is re-raised. -/
def onDeliveryTracking (rpcResult : Except Unit (List Unit)) :
    Except Unit TrackingUi :=
  match rpcResult with
  | .ok records =>
      if records.length > 0 then
        .ok { showDetails := true, showNoRecords := false, searchFormVisible := false }
      else
        .ok { showDetails := false, showNoRecords := true, searchFormVisible := true }
  | .error e => .error e

end DeliveryTracking

namespace MailDesk

/-! ### MailDesk message-list cache,
`src/udoo_lavend_ux/static/src/cmfb/patch/model/static_list.js`.

Message records are modelled by the fields the reconciliation code reads.
`account` is the numeric account id (`_msgKey` takes `account_id[0]` when the
field is a `[id, name]` pair, line 125).  `uid = none` models a `null` or
`undefined` `uid`, in which case `_msgKey` falls back to `id` (line 127).
`dateTs` is the parsed timestamp of `m.date`; `none` stands for a missing or
unparseable date (in which case `new Date(m.date).getTime()` is `NaN` and the
code treats the row as having no valid date, line 1932).  `sortTs = none`
models the `_sort_ts` property being absent, as on every record that has not
passed through `_insertOrUpdateSorted`; server records never carry it. -/

structure Msg where
  id : Int
  account : Int
  folder : Int
  uid : Option Int
  dateTs : Option Int
  sortTs : Option Int
  isRead : Bool
deriving DecidableEq

/-- `this._msgKey` (lines 124-129): the string
`` `${acc}|${fld}|${uid}` `` with `acc = account_id[0]`, `fld = folder_id`,
`uid = m.uid ?? m.id`, modelled as the triple of its numeric components. -/
def msgKey (m : Msg) : Int × Int × Int :=
  (m.account, m.folder, m.uid.getD m.id)

/-- Effective sort timestamp used by the comparator in `_insertOrUpdateSorted`
(lines 1944-1948): `a._sort_ts ?? (a.date ? new Date(a.date).getTime() : 0)`. -/
def effTs (m : Msg) : Int :=
  match m.sortTs with
  | some t => t
  | none =>
    match m.dateTs with
    | some t => t
    | none => 0

/-- Line 1933: `nm._sort_ts = hasValidDate ? new Date(nm.date).getTime()
: nowTs`, where `now` is the `Date.now()` captured at line 1925. -/
def stampSortTs (now : Int) (m : Msg) : Msg :=
  { m with sortTs := some (match m.dateTs with | some t => t | none => now) }

/-- Comparator of line 1944-1948: `(a, b) => bTs - aTs`, i.e. `a` may precede
`b` iff `effTs b ≤ effTs a` (descending, newest first). -/
def msgDescLe (a b : Msg) : Bool :=
  decide (effTs b ≤ effTs a)

/-- The `for (const nm of newMsgs)` loop of `_insertOrUpdateSorted`
(lines 1927-1942): each incoming record is normalised and stamped, then either
`Object.assign`-merged over the row whose key it matches
(`this._getIndexByKey`, lines 131-133) or appended when its key is neither in
the list nor in the `seen` set. -/
def insertLoop (now : Int) : List Msg → List (Int × Int × Int) → List Msg → List Msg
  | list, _, [] => list
  | list, seen, nm0 :: rest =>
    match list.findIdx? (fun m => decide (msgKey m = msgKey (stampSortTs now nm0))) with
    | some i => insertLoop now (list.set i (stampSortTs now nm0)) seen rest
    | none =>
      if msgKey (stampSortTs now nm0) ∈ seen then insertLoop now list seen rest
      else
        insertLoop now (list ++ [stampSortTs now nm0])
          (msgKey (stampSortTs now nm0) :: seen) rest

/-- The merge phase of `_insertOrUpdateSorted`: the loop of lines 1927-1942
run with `seen` initialised to the keys already in the list (line 1924). -/
def insertPhase (now : Int) (list newMsgs : List Msg) : List Msg :=
  insertLoop now list (list.map msgKey) newMsgs

/-- `MailDesk._insertOrUpdateSorted` (lines 1922-1952): merge the incoming
records into `this.state.messages`, re-sort descending by effective timestamp
(lines 1944-1948) and cap the list at `MAX_ROWS = 500` (lines 1950-1951). -/
def insertOrUpdateSorted (now : Int) (list newMsgs : List Msg) : List Msg :=
  (sortBy msgDescLe (insertPhase now list newMsgs)).take 500

/-- The batch-deduplicating append loop of `loadMoreMessages`
(lines 575-577): `for (const m of batch) if (!have.has(m.id)) { add.push(m);
have.add(m.id); }`. -/
def loadMoreLoop : List Int → List Msg → List Msg
  | _, [] => []
  | hv, m :: rest =>
    if m.id ∈ hv then loadMoreLoop hv rest
    else m :: loadMoreLoop (m.id :: hv) rest

/-- The list produced by a completed `loadMoreMessages` batch
(lines 575-578): `have` starts as the ids already present and the deduplicated
additions are pushed at the end. -/
def loadMoreMerge (cur batch : List Msg) : List Msg :=
  cur ++ loadMoreLoop (cur.map Msg.id) batch

/-- `new Map(next.map((m) => [m.id, m]))` (line 512): JavaScript `Map`
construction keeps the last entry for a repeated key. -/
def lastById (next : List Msg) (i : Int) : Option Msg :=
  next.foldl (fun acc m => if m.id = i then some m else acc) none

/-- `new Map(next.map((m, i) => [m.id, i]))` (line 513): index of the last
occurrence of an id in the fetched batch. -/
def lastIdxById (next : List Msg) (i : Int) : Option Nat :=
  next.enum.foldl (fun acc p => if p.2.id = i then some p.1 else acc) none

/-- `Object.assign({}, msg, updated)` (line 521): every field of the server
record overwrites the cached one, except `_sort_ts`, which server records do
not carry (`sortTs = none`), so the cached value survives. -/
def assignMsg (old upd : Msg) : Msg :=
  { upd with sortTs := match upd.sortTs with | some t => some t | none => old.sortTs }

/-- Sort key of line 530: `order.get(m.id) ?? 999999`. -/
def refreshOrdKey (next : List Msg) (m : Msg) : Int :=
  match lastIdxById next m.id with
  | some i => (i : Int)
  | none => 999999

/-- The merge performed by a completed `refreshMessages` response
(lines 512-530): rows already cached and present in the response are merged in
place preserving their order, response rows whose id matched no cached row are
appended (the loop of lines 526-528 does not extend `have`), and the result is
sorted by the response's own order, unknown ids last. -/
def refreshMerge (cur next : List Msg) : List Msg :=
  let part1 := cur.filterMap fun msg =>
    (lastById next msg.id).map fun upd => assignMsg msg upd
  let hvIds := (cur.filter fun msg => (lastById next msg.id).isSome).map Msg.id
  let part2 := next.filter fun m => decide (m.id ∉ hvIds)
  sortBy (fun a b => decide (refreshOrdKey next a ≤ refreshOrdKey next b))
    (part1 ++ part2)

/-- The component state touched by `refreshMessages` (lines 477-547). -/
structure RMState where
  messages : List Msg
  reqStamp : Nat
  isRefreshing : Bool
  totalCount : Int
  messageOffset : Nat
deriving DecidableEq

/-- Payload of a resolved `message_search_load` RPC: `result.records` and
`result.totalMessagesCount` (a missing or `null` count is modelled as `0`,
which the `||` fallback of line 533 treats the same way). -/
structure RpcPayload where
  records : List Msg
  totalMessagesCount : Int
deriving DecidableEq

/-- `MailDesk.refreshMessages` (lines 477-547) run to completion with no
competing request: the captured `stamp` still equals `this._reqStamp` when the
RPC settles.  On success the merged list, count and offset are stored
(lines 532-534); on rejection the `catch` of lines 537-539 logs and restores
the `prevMessages` snapshot of line 485, and the handler returns normally
(`.ok`), so no error propagates. -/
def refreshMessagesHandler (s : RMState) (rpcResult : Except Unit RpcPayload) :
    Except Unit RMState :=
  let stamp := s.reqStamp + 1
  let prev := s.messages
  match rpcResult with
  | .ok payload =>
    let merged := refreshMerge s.messages payload.records
    .ok { messages := merged
          reqStamp := stamp
          isRefreshing := false
          totalCount := if payload.totalMessagesCount = 0 then (merged.length : Int)
            else payload.totalMessagesCount
          messageOffset := merged.length }
  | .error _ =>
    .ok { messages := prev
          reqStamp := stamp
          isRefreshing := false
          totalCount := s.totalCount
          messageOffset := s.messageOffset }

/-- Outcome the network eventually delivers for one `refreshMessages` call:
a resolved response carrying records, or a rejection. -/
inductive Outcome where
  | ok (recs : List Msg)
  | err
deriving DecidableEq

/-- One in-flight `refreshMessages` call: the `stamp` captured at line 478-479
when it was issued, the `prevMessages` snapshot of line 485, and the outcome
its RPC will deliver. -/
structure Completion where
  stamp : Nat
  prev : List Msg
  outcome : Outcome
deriving DecidableEq

/-- Effect on `this.state.messages` of one `refreshMessages` call settling,
given the current `this._reqStamp`: a resolved response is applied only when
the captured stamp is still current (guard of line 502), but the `catch` of
lines 537-539 restores the call's own `prevMessages` snapshot without checking
the stamp. -/
def completeStep (reqStamp : Nat) (msgs : List Msg) (c : Completion) : List Msg :=
  match c.outcome with
  | .ok recs => if c.stamp = reqStamp then refreshMerge msgs recs else msgs
  | .err => c.prev

/-- `this.state.messages` after a set of already-issued `refreshMessages`
calls settle in the given order, with `this._reqStamp` at its final value
`reqStamp` throughout (no further call is issued while they settle). -/
def runCompletions (reqStamp : Nat) (m0 : List Msg) (cs : List Completion) :
    List Msg :=
  cs.foldl (completeStep reqStamp) m0

/-- `MailDesk._safeMergeMessage` (lines 385-399) applied to two whole message
records, as `refreshLight` does at line 362: for each field of the incoming
record, a `null`/`undefined` value leaves the cached value in place and every
other value overwrites it.  On the typed fields of `Msg` the only skippable
values are the `Option` fields (`uid`, the date — whose blank and unparseable
forms are already folded into `none` — and `_sort_ts`, which server records
never carry, so the cached sort stamp survives); the always-present numeric
and boolean fields are overwritten. -/
def safeMergeMsg (ex n : Msg) : Msg :=
  { id := n.id
    account := n.account
    folder := n.folder
    uid := match n.uid with | some u => some u | none => ex.uid
    dateTs := match n.dateTs with | some t => some t | none => ex.dateTs
    sortTs := match n.sortTs with | some t => some t | none => ex.sortTs
    isRead := n.isRead }

/-- Field-merge an incoming record into the last row carrying its key, the
binding the `byKey` map of line 356 holds (`new Map` keeps the last entry for
a repeated key); `none` when no row has the key. -/
def mergeLastByKey : List Msg → Msg → Option (List Msg)
  | [], _ => none
  | ex :: t, n =>
    match mergeLastByKey t n with
    | some t' => some (ex :: t')
    | none =>
      if msgKey ex = msgKey n then some (safeMergeMsg ex n :: t) else none

/-- The merge loop of `refreshLight` (lines 358-367): each normalized record
is `_safeMergeMessage`-merged into the row its key matches, or pushed at the
end (which also extends the `byKey` map, line 365, so a later record with the
same key merges into the pushed row). -/
def refreshLightLoop : List Msg → List Msg → List Msg
  | list, [] => list
  | list, n :: rest =>
    match mergeLastByKey list n with
    | some list' => refreshLightLoop list' rest
    | none => refreshLightLoop (list ++ [n]) rest

/-- Effect on `this.state.messages` of one `refreshLight` call settling
(lines 306-371): a rejected RPC returns before touching any state
(lines 344-347), a resolved response is applied only when the captured stamp
still equals `this._reqStamp` (line 349), and an applied response merges the
records by key (lines 358-367) and then re-sorts and caps the list via
`this._insertOrUpdateSorted([])` (line 369). -/
def refreshLightStep (reqStamp : Nat) (now : Int) (msgs : List Msg)
    (c : Completion) : List Msg :=
  match c.outcome with
  | .ok recs =>
    if c.stamp = reqStamp then
      insertOrUpdateSorted now (refreshLightLoop msgs recs) []
    else msgs
  | .err => msgs

/-- `this.state.messages` after a set of already-issued `refreshLight` calls
settle in the given order, with `this._reqStamp` at its final value
throughout. -/
def runLightCompletions (reqStamp : Nat) (now : Int) (m0 : List Msg)
    (cs : List Completion) : List Msg :=
  cs.foldl (refreshLightStep reqStamp now) m0

/-- Outcome of the `get_message_with_attachments` RPC of one `selectMessage`
call: the full message, or a rejection. -/
inductive SelOutcome where
  | ok (fullMsg : Msg)
  | err
deriving DecidableEq

/-- One in-flight `selectMessage` call: the token captured at line 621 when it
was issued, and the outcome its RPC will deliver. -/
structure SelCompletion where
  token : Nat
  outcome : SelOutcome
deriving DecidableEq

/-- The component state `selectMessage` writes on its completion paths. -/
structure SelState where
  selectedMessage : Option Msg
  isLoadingMessage : Bool
deriving DecidableEq

/-- Effect of one `selectMessage` call settling, given the latest value of
`this._selTok` (lines 620-682): a stale completion is never applied — the
success path returns at line 638 before any state write (including the
`wasUnread` bookkeeping of lines 650-669), the `catch` returns at line 677,
and the `finally` clears the spinner only when current (line 680).  A current
success stores the fetched message (line 648); a current failure clears the
selection (line 678). -/
def selectMessageStep (selTok : Nat) (s : SelState) (c : SelCompletion) :
    SelState :=
  if c.token = selTok then
    match c.outcome with
    | .ok fullMsg => { selectedMessage := some fullMsg, isLoadingMessage := false }
    | .err => { selectedMessage := none, isLoadingMessage := false }
  else s

/-- `selectMessage` state after a set of already-issued calls settle in the
given order, with `this._selTok` at its final value throughout. -/
def runSelCompletions (selTok : Nat) (s0 : SelState)
    (cs : List SelCompletion) : SelState :=
  cs.foldl (selectMessageStep selTok) s0

/-- A concrete message record, used at concrete inputs in the theorems below. -/
def sampleMsg : Msg :=
  { id := 1, account := 1, folder := 1, uid := some 1, dateTs := some 100,
    sortTs := none, isRead := false }

/-- A second record carrying the same id (a server batch can repeat an id), but
different content. -/
def sampleMsgDup : Msg :=
  { id := 1, account := 1, folder := 1, uid := some 1, dateTs := some 200,
    sortTs := none, isRead := true }

/-! #### `_safeMergeMessage` (lines 385-399).

The routine walks `Object.entries(incoming)` and copies each value onto the
target unless it is `undefined`, `null`, or a string whose `trim()` is empty.
Records are modelled as association lists of own enumerable properties in
entry order; `Object.entries` yields each key at most once. -/

/-- A JavaScript property value, as far as `_safeMergeMessage` inspects it:
`undefined`, `null`, a string, or any other value (abstracted by a numeric
tag). -/
inductive JVal where
  | undef
  | jnull
  | str (s : String)
  | other (tag : Int)
deriving DecidableEq

/-- Property lookup, `target[key]`: the binding of the key, if any. -/
def getField : List (String × JVal) → String → Option JVal
  | [], _ => none
  | (k', v) :: t, k => if k' = k then some v else getField t k

/-- Property assignment, `target[key] = value`: replace the binding of the key
in place, or append a new one. -/
def setField : List (String × JVal) → String → JVal → List (String × JVal)
  | [], k, v => [(k, v)]
  | (k', v') :: t, k, v =>
    if k' = k then (k, v) :: t else (k', v') :: setField t k v

/-- The skip conditions of lines 390-395: `value === undefined || value ===
null` and `typeof value === "string" && value.trim() === ""` make the loop
`continue` without touching the target. -/
def keepIncoming : JVal → Bool
  | .undef => false
  | .jnull => false
  | .str s => decide (¬ s.trim = "")
  | .other _ => true

/-- `MailDesk._safeMergeMessage(target, incoming)` (lines 385-399).  A falsy
`incoming` (modelled `none`) leaves the target untouched (line 386-388);
otherwise each kept entry is assigned onto the target in order. -/
def safeMergeMessage (target : List (String × JVal)) :
    Option (List (String × JVal)) → List (String × JVal)
  | none => target
  | some incoming =>
    incoming.foldl
      (fun t p => if keepIncoming p.2 then setField t p.1 p.2 else t) target

/-! #### The folder tree and `_bumpFolderUnread` (lines 1157-1183).

`this.state.foldersByAccount[accId]` is an array of folder nodes, each with an
`unread_count` and a `children` array; `walk` visits nodes depth-first and
stops at the first node whose id matches, clamping its updated count at zero:
`next = Math.max(0, cur + delta)` (line 1168).  (`cur = f.unread_count || 0`
is the identity on integer counts: `0 || 0 === 0`.)  The tree is modelled by a
mutual inductive so that the walk is structural. -/

mutual
inductive Folder where
  | node (id : Int) (unread : Int) (children : Forest)
inductive Forest where
  | nil
  | cons (f : Folder) (fs : Forest)
end

mutual
/-- The `walk` of lines 1164-1178 on a single node: on an id match the count
is clamped (`Math.max(0, cur + delta)`, line 1168) and the walk stops; the
third component is the `changed` flag (line 1169-1172), the second is `walk`'s
found result. -/
def bumpFolder (fid delta : Int) : Folder → Folder × Bool × Bool
  | .node i u cs =>
    if i = fid then
      (.node i (max 0 (u + delta)) cs, true, decide (¬ u = max 0 (u + delta)))
    else
      match bumpForest fid delta cs with
      | (cs', found, changed) => (.node i u cs', found, changed)
/-- The `walk` of lines 1164-1178 on a node array: first match wins, later
siblings are not visited. -/
def bumpForest (fid delta : Int) : Forest → Forest × Bool × Bool
  | .nil => (.nil, false, false)
  | .cons f fs =>
    match bumpFolder fid delta f with
    | (f', true, changed) => (.cons f' fs, true, changed)
    | (f', false, _) =>
      match bumpForest fid delta fs with
      | (fs', found, changed) => (.cons f' fs', found, changed)
end

/-- `MailDesk._bumpFolderUnread(folderId, delta)` (lines 1157-1183): a zero
delta or a missing current account returns `false` without walking; otherwise
the current account's tree is walked and the `changed` flag returned.  (An
account id of `0` would also be falsy in JavaScript; account ids are positive
database ids.) -/
def bumpFolderUnread (currentAccount : Option Int) (tree : Forest)
    (folderId delta : Int) : Forest × Bool :=
  if delta = 0 then (tree, false)
  else
    match currentAccount with
    | none => (tree, false)
    | some _ =>
      match bumpForest folderId delta tree with
      | (t', _, changed) => (t', changed)

mutual
/-- Every folder of the node has a non-negative `unread_count`. -/
def folderOk : Folder → Bool
  | .node _ u cs => decide (0 ≤ u) && forestOk cs
/-- Every folder of the tree has a non-negative `unread_count`. -/
def forestOk : Forest → Bool
  | .nil => true
  | .cons f fs => folderOk f && forestOk fs
end

/-! #### Debounce wiring (`static_list.js`). -/

/-- Delay of `this.onDelayedSearch = debounce(() => this.refreshMessages(),
800)` (line 122). -/
def searchDebounceMs : Int := 800

/-- Delay of `refreshLight = debounce(async (payload) => { ... }, 400)`
(lines 306-371). -/
def refreshLightDebounceMs : Int := 400

/-- The search box state touched by `onSearchInput` (lines 982-985): each
keystroke stores the query and invokes the debounced `onDelayedSearch`, i.e.
registers one more trigger of the 800 ms debounce at the event's time. -/
structure SearchBox where
  searchQuery : String
  triggers : List Int

/-- `onSearchInput` (lines 982-985). -/
def onSearchInput (s : SearchBox) (query : String) (time : Int) : SearchBox :=
  { searchQuery := query, triggers := s.triggers ++ [time] }

end MailDesk

namespace Debounce

/-- Modelled from the spec: the `debounce` utility imported from
`@web/core/utils/timing` is host-framework code, not part of this repository's
sources.  The spec's glossary defines it as "delay executing a handler until
input events stop arriving for a fixed interval".  Given the times of all
trigger calls, the wrapped callback runs at `t + delay` exactly for those
triggers `t` followed by no other trigger strictly inside `(t, t + delay)`;
a trigger inside that window re-arms the timer and cancels the pending run. -/
def fireTimes (delay : Int) (triggers : List Int) : List Int :=
  (triggers.filter fun t =>
    triggers.all fun u => decide (u ≤ t) || decide (t + delay ≤ u)).map
    (· + delay)

end Debounce

end SkydellMedical

namespace SkydellMedical

theorem insertSorted_perm (le : α → α → Bool) (a : α) (l : List α) :
    (insertSorted le a l).Perm (a :: l) := by
  induction l with
  | nil => exact List.Perm.refl _
  | cons b bs ih =>
    by_cases h : le a b = true
    · rw [insertSorted, if_pos h]
    · rw [insertSorted, if_neg h]
      exact (List.Perm.cons b ih).trans (List.Perm.swap a b bs)

theorem sortBy_perm (le : α → α → Bool) (l : List α) : (sortBy le l).Perm l := by
  induction l with
  | nil => exact List.Perm.refl _
  | cons a as ih =>
    exact (insertSorted_perm le a (sortBy le as)).trans (List.Perm.cons a ih)

theorem mem_insertSorted {le : α → α → Bool} {a x : α} {l : List α}
    (h : x ∈ insertSorted le a l) : x = a ∨ x ∈ l :=
  List.mem_cons.1 ((insertSorted_perm le a l).mem_iff.1 h)

theorem insertSorted_pairwise {le : α → α → Bool}
    (trans : ∀ a b c, le a b = true → le b c = true → le a c = true)
    (total : ∀ a b, le a b = true ∨ le b a = true)
    (a : α) {l : List α} (h : l.Pairwise (fun x y => le x y = true)) :
    (insertSorted le a l).Pairwise (fun x y => le x y = true) := by
  induction l with
  | nil => simp [insertSorted]
  | cons b bs ih =>
    rcases List.pairwise_cons.1 h with ⟨hb, hbs⟩
    by_cases hab : le a b = true
    · rw [insertSorted, if_pos hab]
      refine List.pairwise_cons.2 ⟨?_, h⟩
      intro y hy
      rcases List.mem_cons.1 hy with rfl | hy'
      · exact hab
      · exact trans a b y hab (hb y hy')
    · rw [insertSorted, if_neg hab]
      refine List.pairwise_cons.2 ⟨?_, ih hbs⟩
      intro y hy
      rcases mem_insertSorted hy with rfl | hy'
      · exact (total y b).resolve_left hab
      · exact hb y hy'

theorem sortBy_pairwise {le : α → α → Bool}
    (trans : ∀ a b c, le a b = true → le b c = true → le a c = true)
    (total : ∀ a b, le a b = true ∨ le b a = true) (l : List α) :
    (sortBy le l).Pairwise (fun x y => le x y = true) := by
  induction l with
  | nil => simp [sortBy]
  | cons a as ih => exact insertSorted_pairwise trans total a ih

namespace Otp

theorem sanitize_toList (s : String) :
    (sanitize s).toList = (s.toList.filter Char.isDigit).take 6 := rfl

theorem sanitize_all_digits (s : String) :
    ∀ c ∈ (sanitize s).toList, c.isDigit := by
  intro c hc
  rw [sanitize_toList] at hc
  exact (List.mem_filter.1 (List.mem_of_mem_take hc)).2

theorem sanitize_length_le (s : String) : (sanitize s).length ≤ 6 := by
  have h : (sanitize s).length = (sanitize s).toList.length := rfl
  rw [h, sanitize_toList]
  exact le_trans (List.length_take_le _ _) (le_refl _)

theorem sanitize_length_eq (s : String) :
    (sanitize s).length = min 6 (s.toList.filter Char.isDigit).length := by
  have h : (sanitize s).length = (sanitize s).toList.length := rfl
  rw [h, sanitize_toList, List.length_take]

/-- C5: after every input event and every paste event on the OTP code field,
the field's value consists only of the digits 0-9 (non-digit characters are
removed) and has length at most 6 (longer values are truncated to the first 6
digits). -/
theorem otp_value_digits_only_and_capped (raw pasted : String) :
    (((inputEvent raw).1.toList.all Char.isDigit ∧ (inputEvent raw).1.length ≤ 6) ∧
      (inputEvent raw).1 = ((raw.toList.filter Char.isDigit).take 6).asString) ∧
    (((pasteEvent pasted).1.toList.all Char.isDigit ∧ (pasteEvent pasted).1.length ≤ 6) ∧
      (pasteEvent pasted).1 = ((pasted.toList.filter Char.isDigit).take 6).asString) := by
  refine ⟨⟨⟨?_, sanitize_length_le raw⟩, rfl⟩, ⟨⟨?_, sanitize_length_le pasted⟩, rfl⟩⟩ <;>
    exact List.all_eq_true.2 fun c hc => sanitize_all_digits _ c hc

/-- C6: an input or paste event on the OTP field schedules an automatic form
submission (a 300 ms delayed submit with the verify button disabled) exactly
when it leaves the field's value with 6 digits — i.e. exactly when the raw
(resp. pasted) text contains at least 6 digits — and schedules nothing while
the value has fewer than 6 characters. -/
theorem otp_auto_submit_iff_six_digits (raw pasted : String) :
    ((inputEvent raw).2 =
      if 6 ≤ (raw.toList.filter Char.isDigit).length
        then some ⟨300, true⟩ else none) ∧
    ((pasteEvent pasted).2 =
      if 6 ≤ (pasted.toList.filter Char.isDigit).length
        then some ⟨300, true⟩ else none) := by
  have key : ∀ (n : Nat) (x y : Option SubmitAction),
      (if min 6 n = 6 then x else y) = if 6 ≤ n then x else y := by
    intro n x y
    by_cases h : 6 ≤ n
    · rw [if_pos (by omega), if_pos h]
    · rw [if_neg (by omega), if_neg h]
  constructor
  · show (if (sanitize raw).length = 6 then some (⟨300, true⟩ : SubmitAction)
        else none) = _
    rw [sanitize_length_eq, key]
  · show (if (sanitize pasted).length = 6 then some (⟨300, true⟩ : SubmitAction)
        else none) = _
    rw [sanitize_length_eq, key]

end Otp

namespace PaymentFee

/-- C8: in both the PaymentFee and PaymentPortalFee widgets, while the
`_updatingFee` flag is set every further payment-option change returns without
issuing another fee-update RPC, and whenever a call does proceed the flag is
cleared on every exit path — success, server-reported error, and thrown
exception — so the guard can never deadlock the widget. -/
theorem payment_fee_single_flight (w : Widget) (r : Except Unit Bool)
    (r' : Except Unit Unit) :
    (w.updatingFee = true →
      updatePaymentFee w r = .ok (w, false) ∧
      portalUpdatePaymentFee w r' = .ok (w, false)) ∧
    (w.updatingFee = false →
      (∃ w', updatePaymentFee w r = .ok (w', true) ∧ w'.updatingFee = false) ∧
      (∃ w', portalUpdatePaymentFee w r' = .ok (w', true) ∧
        w'.updatingFee = false)) := by
  obtain ⟨f⟩ := w
  constructor
  · rintro rfl
    exact ⟨by simp [updatePaymentFee], by simp [portalUpdatePaymentFee]⟩
  · rintro rfl
    constructor
    · refine ⟨⟨false⟩, ?_, rfl⟩
      rcases r with e | b
      · simp [updatePaymentFee]
      · cases b <;> simp [updatePaymentFee]
    · refine ⟨⟨false⟩, ?_, rfl⟩
      rcases r' with e | u <;> simp [portalUpdatePaymentFee]

theorem payment_fee_single_flight_witness :
    (updatePaymentFee ⟨true⟩ (.error ()) = .ok (⟨true⟩, false) ∧
      portalUpdatePaymentFee ⟨true⟩ (.error ()) = .ok (⟨true⟩, false)) ∧
    (∃ w', updatePaymentFee ⟨false⟩ (.error ()) = .ok (w', true) ∧
      w'.updatingFee = false) :=
  ⟨(payment_fee_single_flight ⟨true⟩ (.error ()) (.error ())).1 rfl,
   ((payment_fee_single_flight ⟨false⟩ (.error ()) (.error ())).2 rfl).1⟩

end PaymentFee

theorem findIdx?_eq_none_forall {p : α → Bool} :
    ∀ (l : List α) (i : Nat), List.findIdx? p l i = none → ∀ x ∈ l, p x = false := by
  intro l
  induction l with
  | nil => intro i _ x hx; cases hx
  | cons a as ih =>
    intro i h x hx
    rw [List.findIdx?_cons] at h
    by_cases hp : p a = true
    · rw [if_pos hp] at h; cases h
    · rw [if_neg hp] at h
      rcases List.mem_cons.1 hx with rfl | hx'
      · exact Bool.eq_false_iff.2 hp
      · exact ih (i + 1) h x hx'

theorem findIdx?_some_spec {p : α → Bool} :
    ∀ (l : List α) (i j : Nat), List.findIdx? p l i = some j →
      ∃ k a, j = i + k ∧ l.get? k = some a ∧ p a = true := by
  intro l
  induction l with
  | nil => intro i j h; cases h
  | cons x xs ih =>
    intro i j h
    rw [List.findIdx?_cons] at h
    by_cases hp : p x = true
    · rw [if_pos hp] at h
      exact ⟨0, x, by cases h; omega, rfl, hp⟩
    · rw [if_neg hp] at h
      obtain ⟨k, a, hk, hget, hpa⟩ := ih (i + 1) j h
      exact ⟨k + 1, a, by omega, hget, hpa⟩

theorem set_get?_self : ∀ (l : List α) (i : Nat) (a : α),
    l.get? i = some a → l.set i a = l
  | [], _, _, h => by cases h
  | x :: xs, 0, a, h => by
    cases h; rfl
  | x :: xs, n + 1, a, h =>
    congrArg (x :: ·) (set_get?_self xs n a h)

namespace MailDesk

theorem msgKey_stampSortTs (now : Int) (m : Msg) :
    msgKey (stampSortTs now m) = msgKey m := rfl

theorem id_assignMsg (old upd : Msg) : (assignMsg old upd).id = upd.id := rfl

/-- When the incoming record's key is found at index `i`, overwriting that row
with it leaves the list of keys unchanged. -/
theorem keys_set_of_found {list : List Msg} {i : Nat} {nm : Msg}
    (h : List.findIdx? (fun m => decide (msgKey m = msgKey nm)) list 0 = some i) :
    (list.set i nm).map msgKey = list.map msgKey := by
  obtain ⟨k, a, hj, hget, hp⟩ := findIdx?_some_spec _ 0 i h
  have hk : i = k := by omega
  subst hk
  rw [List.map_set]
  apply set_get?_self
  rw [List.get?_map, hget]
  exact congrArg some (of_decide_eq_true hp)

theorem insertLoop_keys_nodup (now : Int) :
    ∀ (newMsgs list : List Msg) (seen : List (Int × Int × Int)),
      (list.map msgKey).Nodup → ((insertLoop now list seen newMsgs).map msgKey).Nodup := by
  intro newMsgs
  induction newMsgs with
  | nil => intro list seen h; exact h
  | cons nm0 rest ih =>
    intro list seen h
    rw [insertLoop]
    cases hfind :
        List.findIdx? (fun m => decide (msgKey m = msgKey (stampSortTs now nm0))) list 0 with
    | some i =>
      exact ih _ seen (by rw [keys_set_of_found hfind]; exact h)
    | none =>
      by_cases hseen : msgKey (stampSortTs now nm0) ∈ seen
      · rw [if_pos hseen]; exact ih list seen h
      · rw [if_neg hseen]
        refine ih _ _ ?_
        rw [List.map_append]
        refine List.Nodup.append h (List.nodup_singleton _) ?_
        intro k hk hk1
        rw [List.map_singleton, List.mem_singleton] at hk1
        subst hk1
        obtain ⟨x, hx, hxk⟩ := List.mem_map.1 hk
        have := findIdx?_eq_none_forall _ 0 hfind x hx
        rw [decide_eq_false_iff_not] at this
        exact this hxk

theorem loadMoreLoop_spec :
    ∀ (batch : List Msg) (hv : List Int),
      ((loadMoreLoop hv batch).map Msg.id).Nodup ∧
      ∀ i ∈ (loadMoreLoop hv batch).map Msg.id, i ∉ hv := by
  intro batch
  induction batch with
  | nil => intro hv; exact ⟨List.nodup_nil, by intro i hi; cases hi⟩
  | cons m rest ih =>
    intro hv
    rw [loadMoreLoop]
    by_cases hm : m.id ∈ hv
    · rw [if_pos hm]; exact ih hv
    · rw [if_neg hm]
      obtain ⟨hnd, hmem⟩ := ih (m.id :: hv)
      constructor
      · rw [List.map_cons]
        refine List.nodup_cons.2 ⟨?_, hnd⟩
        intro hc
        exact hmem m.id hc (List.mem_cons_self _ _)
      · intro i hi
        rcases List.mem_cons.1 hi with rfl | hi'
        · exact hm
        · intro hiv
          exact hmem i hi' (List.mem_cons_of_mem _ hiv)

theorem foldl_lastById_aux (i : Int) :
    ∀ (next : List Msg) (acc : Option Msg),
      (∀ m, acc = some m → m.id = i) →
      ∀ m, next.foldl (fun acc m => if m.id = i then some m else acc) acc = some m →
        m.id = i := by
  intro next
  induction next with
  | nil => intro acc hacc m h; exact hacc m h
  | cons x xs ih =>
    intro acc hacc m h
    refine ih _ ?_ m h
    intro m' hm'
    dsimp only at hm'
    by_cases hx : x.id = i
    · rw [if_pos hx] at hm'; cases hm'; exact hx
    · rw [if_neg hx] at hm'; exact hacc m' hm'

theorem lastById_some_id {next : List Msg} {i : Int} {m : Msg}
    (h : lastById next i = some m) : m.id = i :=
  foldl_lastById_aux i next none (by intro m' hm'; cases hm') m h

/-- The ids of the merged-in-place rows are exactly the ids recorded in the
`have` set: the cached rows whose id appears in the response. -/
theorem refreshMerge_part1_ids (next : List Msg) :
    ∀ cur : List Msg,
      (cur.filterMap fun msg =>
        (lastById next msg.id).map fun upd => assignMsg msg upd).map Msg.id =
      ((cur.filter fun msg => (lastById next msg.id).isSome).map Msg.id) := by
  intro cur
  induction cur with
  | nil => rfl
  | cons msg rest ih =>
    rw [List.filterMap_cons, List.filter_cons]
    cases hlast : lastById next msg.id with
    | none => simpa [hlast] using ih
    | some upd =>
      simp only [hlast, Option.map_some', Option.isSome_some, if_pos]
      rw [List.map_cons, List.map_cons, ih, id_assignMsg,
        lastById_some_id hlast]

theorem refreshMerge_ids_nodup {cur next : List Msg}
    (hcur : (cur.map Msg.id).Nodup) (hnext : (next.map Msg.id).Nodup) :
    ((refreshMerge cur next).map Msg.id).Nodup := by
  rw [refreshMerge]
  have hperm := (sortBy_perm
    (fun a b => decide (refreshOrdKey next a ≤ refreshOrdKey next b))
    ((cur.filterMap fun msg =>
        (lastById next msg.id).map fun upd => assignMsg msg upd) ++
      (next.filter fun m => decide (m.id ∉
        ((cur.filter fun msg => (lastById next msg.id).isSome).map Msg.id))))).map Msg.id
  refine hperm.symm.nodup ?_
  rw [List.map_append]
  refine List.Nodup.append ?_ ?_ ?_
  · rw [refreshMerge_part1_ids]
    exact ((List.filter_sublist cur).map Msg.id).nodup hcur
  · exact ((List.filter_sublist next).map Msg.id).nodup hnext
  · intro a ha hb
    rw [refreshMerge_part1_ids] at ha
    obtain ⟨m, hm, hma⟩ := List.mem_map.1 hb
    have hnot := (List.mem_filter.1 hm).2
    rw [decide_eq_true_eq] at hnot
    exact hnot (hma ▸ ha)

theorem msgDescLe_trans (a b c : Msg) :
    msgDescLe a b = true → msgDescLe b c = true → msgDescLe a c = true := by
  intro hab hbc
  rw [msgDescLe, decide_eq_true_eq] at hab hbc ⊢
  exact le_trans hbc hab

theorem msgDescLe_total (a b : Msg) :
    msgDescLe a b = true ∨ msgDescLe b a = true := by
  rw [msgDescLe, msgDescLe, decide_eq_true_eq, decide_eq_true_eq]
  exact Int.le_total _ _

/-- C1 (amended): after every call to `MailDesk._insertOrUpdateSorted` the
message list is sorted by effective message timestamp in descending order
(newest first) and has length at most 500; an entry whose key (account id,
folder id, uid) already exists is merged in place rather than appended, and
key-uniqueness is preserved — the list contains no two entries with the same
key provided it contained none before the call.  Appends by `loadMoreMessages`
never introduce two entries with the same id; merges by `refreshMessages`
never introduce two entries with the same id provided the fetched records have
pairwise distinct ids (a batch that repeats an id is deduplicated by
`loadMoreMessages` but not by `refreshMessages`). -/
theorem message_list_reconciliation (now : Int)
    (list newMsgs cur batch next : List Msg) :
    ((list.map msgKey).Nodup →
      ((insertOrUpdateSorted now list newMsgs).map msgKey).Nodup) ∧
    (insertOrUpdateSorted now list newMsgs).Pairwise
      (fun a b => effTs b ≤ effTs a) ∧
    (insertOrUpdateSorted now list newMsgs).length ≤ 500 ∧
    (∀ nm, msgKey nm ∈ list.map msgKey →
      (insertPhase now list [nm]).length = list.length) ∧
    ((cur.map Msg.id).Nodup → ((loadMoreMerge cur batch).map Msg.id).Nodup) ∧
    ((cur.map Msg.id).Nodup → (next.map Msg.id).Nodup →
      ((refreshMerge cur next).map Msg.id).Nodup) := by
  refine ⟨?_, ?_, ?_, ?_, ?_, fun h1 h2 => refreshMerge_ids_nodup h1 h2⟩
  · intro h
    rw [insertOrUpdateSorted]
    have hphase := insertLoop_keys_nodup now newMsgs list (list.map msgKey) h
    have hperm := (sortBy_perm msgDescLe (insertPhase now list newMsgs)).map msgKey
    have hsorted := hperm.symm.nodup hphase
    exact ((List.take_sublist 500 _).map msgKey).nodup hsorted
  · rw [insertOrUpdateSorted]
    refine List.Pairwise.sublist (List.take_sublist 500 _) ?_
    exact (sortBy_pairwise msgDescLe_trans msgDescLe_total _).imp
      fun h => of_decide_eq_true h
  · rw [insertOrUpdateSorted]
    exact List.length_take_le 500 _
  · intro nm hmem
    rw [insertPhase, insertLoop]
    cases hfind : List.findIdx?
        (fun m => decide (msgKey m = msgKey (stampSortTs now nm))) list 0 with
    | some i =>
      show (list.set i (stampSortTs now nm)).length = list.length
      exact List.length_set list i _
    | none =>
      exfalso
      obtain ⟨x, hx, hxk⟩ := List.mem_map.1 hmem
      have := findIdx?_eq_none_forall _ 0 hfind x hx
      rw [msgKey_stampSortTs, decide_eq_false_iff_not] at this
      exact this hxk
  · intro hcur
    rw [loadMoreMerge, List.map_append]
    refine List.Nodup.append hcur (loadMoreLoop_spec batch _).1 ?_
    intro a ha hb
    exact (loadMoreLoop_spec batch (cur.map Msg.id)).2 a hb ha

theorem message_list_reconciliation_witness :
    ((insertOrUpdateSorted 0 [sampleMsg] [sampleMsgDup]).map msgKey).Nodup ∧
    (insertPhase 0 [sampleMsg] [sampleMsgDup]).length =
      ([sampleMsg] : List Msg).length ∧
    ((loadMoreMerge [] [sampleMsg]).map Msg.id).Nodup ∧
    ((refreshMerge [] [sampleMsg]).map Msg.id).Nodup := by
  obtain ⟨h1, _, _, h4, h5, h6⟩ :=
    message_list_reconciliation 0 [sampleMsg] [sampleMsgDup] [] [sampleMsg]
      [sampleMsg]
  exact ⟨h1 (by decide), h4 sampleMsgDup (by decide), h5 (by simp),
    h6 (by simp) (by simp)⟩

/-- C1 counterexample: when the `message_search_load` response contains two
records with the same id, the merge in `refreshMessages` (whose append loop,
lines 526-528, does not extend the `have` set) produces a message list with
two entries sharing that id. -/
theorem refresh_duplicate_id_counterexample :
    (refreshMerge [] [sampleMsg, sampleMsgDup]).map Msg.id = [1, 1] ∧
    ¬ ((refreshMerge [] [sampleMsg, sampleMsgDup]).map Msg.id).Nodup := by
  decide

/-- C3: when the RPC inside `MailDesk.refreshMessages` throws, the handler
returns normally (`.ok` — the error is only logged, nothing propagates and no
retry is issued), the message list is restored to exactly the value it had
before the call, and the count and offset are untouched; only the request
counter advances and the refreshing spinner is cleared. -/
theorem refresh_error_keeps_stale_data (s : RMState) :
    refreshMessagesHandler s (.error ()) =
      .ok { s with reqStamp := s.reqStamp + 1, isRefreshing := false } ∧
    ∃ s', refreshMessagesHandler s (.error ()) = .ok s' ∧
      s'.messages = s.messages ∧ s'.totalCount = s.totalCount ∧
      s'.messageOffset = s.messageOffset :=
  ⟨rfl, ⟨_, rfl, rfl, rfl, rfl⟩⟩

theorem completions_all_ok_stale_noop (n : Nat) :
    ∀ (cs : List Completion) (m0 : List Msg),
      (∀ c ∈ cs, c.stamp ≠ n ∧ ∃ recs, c.outcome = .ok recs) →
      runCompletions n m0 cs = m0 := by
  intro cs
  induction cs with
  | nil => intro m0 _; rfl
  | cons c rest ih =>
    intro m0 h
    obtain ⟨hne, recs, hok⟩ := h c (List.mem_cons_self _ _)
    show runCompletions n (completeStep n m0 c) rest = m0
    have hstep : completeStep n m0 c = m0 := by
      rw [completeStep, hok]
      exact if_neg hne
    rw [hstep]
    exact ih m0 fun c' hc' => h c' (List.mem_cons_of_mem _ hc')

theorem lightCompletions_stale_noop (n : Nat) (now : Int) :
    ∀ (cs : List Completion) (m0 : List Msg),
      (∀ c ∈ cs, c.stamp ≠ n) → runLightCompletions n now m0 cs = m0 := by
  intro cs
  induction cs with
  | nil => intro m0 _; rfl
  | cons c rest ih =>
    intro m0 h
    have hne := h c (List.mem_cons_self _ _)
    show runLightCompletions n now (refreshLightStep n now m0 c) rest = m0
    have hstep : refreshLightStep n now m0 c = m0 := by
      rw [refreshLightStep]
      cases hc : c.outcome with
      | ok recs => exact if_neg hne
      | err => rfl
    rw [hstep]
    exact ih m0 fun c' hc' => h c' (List.mem_cons_of_mem _ hc')

theorem selCompletions_stale_noop (tok : Nat) :
    ∀ (cs : List SelCompletion) (s0 : SelState),
      (∀ c ∈ cs, c.token ≠ tok) → runSelCompletions tok s0 cs = s0 := by
  intro cs
  induction cs with
  | nil => intro s0 _; rfl
  | cons c rest ih =>
    intro s0 h
    have hne := h c (List.mem_cons_self _ _)
    show runSelCompletions tok (selectMessageStep tok s0 c) rest = s0
    have hstep : selectMessageStep tok s0 c = s0 := by
      rw [selectMessageStep]
      exact if_neg hne
    rw [hstep]
    exact ih s0 fun c' hc' => h c' (List.mem_cons_of_mem _ hc')

/-- C2 (amended): the stamp/token guards give last-write-wins by request
issuance order, not completion order.  For `refreshLight`, a failing RPC
writes nothing and a resolved response whose captured stamp no longer equals
the latest counter is never applied, so for any interleaving of completions
and any mix of outcomes of the stale calls the final message list is the
latest-issued request's merge result.  For `selectMessage`, a completion —
success or failure — whose captured token is stale is never applied, so the
final selection state is always the latest-issued call's own result.  For
`refreshMessages`, a stale resolved response is never applied and the final
list is the latest-issued request's result whenever every in-flight call
resolves successfully; however, its `catch` branch restores the call's own
pre-call snapshot without checking the stamp, so a stale *failing*
`refreshMessages` call does overwrite the UI state (see the counterexample).
In-flight network calls are never aborted: every issued request's completion
is processed. -/
theorem last_write_wins_by_issuance (n tok : Nat) (now : Int) :
    (∀ (msgs : List Msg) (c : Completion) (recs : List Msg),
      c.outcome = .ok recs → c.stamp ≠ n → completeStep n msgs c = msgs) ∧
    (∀ (m0 : List Msg) (cs : List Completion) (p r : List Msg),
      (∀ c ∈ cs, ∃ recs, c.outcome = .ok recs) →
      (cs.map Completion.stamp).Nodup →
      ({ stamp := n, prev := p, outcome := .ok r } : Completion) ∈ cs →
      runCompletions n m0 cs = refreshMerge m0 r) ∧
    (∀ (msgs : List Msg) (c : Completion),
      c.outcome = .err ∨ c.stamp ≠ n → refreshLightStep n now msgs c = msgs) ∧
    (∀ (m0 : List Msg) (cs : List Completion) (p r : List Msg),
      (cs.map Completion.stamp).Nodup →
      ({ stamp := n, prev := p, outcome := .ok r } : Completion) ∈ cs →
      runLightCompletions n now m0 cs =
        insertOrUpdateSorted now (refreshLightLoop m0 r) []) ∧
    (∀ (s : SelState) (c : SelCompletion),
      c.token ≠ tok → selectMessageStep tok s c = s) ∧
    (∀ (s0 : SelState) (cs : List SelCompletion) (o : SelOutcome),
      (cs.map SelCompletion.token).Nodup →
      ({ token := tok, outcome := o } : SelCompletion) ∈ cs →
      runSelCompletions tok s0 cs =
        selectMessageStep tok s0 { token := tok, outcome := o }) := by
  refine ⟨?_, ?_, ?_, ?_, ?_, ?_⟩
  · intro msgs c recs hok hne
    rw [completeStep, hok]
    exact if_neg hne
  · intro m0 cs
    induction cs generalizing m0 with
    | nil => intro p r _ _ h; cases h
    | cons c rest ih =>
      intro p r hok hnd hmem
      have hndtail := (List.nodup_cons.1 hnd).2
      rcases List.mem_cons.1 hmem with heq | hmem'
      · subst heq
        show runCompletions n (completeStep n m0 _) rest = refreshMerge m0 r
        have hstep : completeStep n m0
            { stamp := n, prev := p, outcome := .ok r } = refreshMerge m0 r := by
          rw [completeStep]
          exact if_pos rfl
        rw [hstep]
        refine completions_all_ok_stale_noop n rest _ ?_
        intro c' hc'
        refine ⟨?_, hok c' (List.mem_cons_of_mem _ hc')⟩
        intro hc'n
        exact (List.nodup_cons.1 hnd).1
          (hc'n ▸ List.mem_map.2 ⟨c', hc', rfl⟩)
      · have hcn : c.stamp ≠ n := by
          intro hcn
          exact (List.nodup_cons.1 hnd).1
            (hcn ▸ List.mem_map.2
              ⟨{ stamp := n, prev := p, outcome := .ok r }, hmem', rfl⟩)
        obtain ⟨recs, hrecs⟩ := hok c (List.mem_cons_self _ _)
        show runCompletions n (completeStep n m0 c) rest = refreshMerge m0 r
        have hstep : completeStep n m0 c = m0 := by
          rw [completeStep, hrecs]
          exact if_neg hcn
        rw [hstep]
        exact ih m0 p r (fun c' hc' => hok c' (List.mem_cons_of_mem _ hc'))
          hndtail hmem'
  · intro msgs c hc
    rw [refreshLightStep]
    cases hout : c.outcome with
    | ok recs =>
      rcases hc with herr | hne
      · rw [hout] at herr; cases herr
      · exact if_neg hne
    | err => rfl
  · intro m0 cs
    induction cs generalizing m0 with
    | nil => intro p r _ h; cases h
    | cons c rest ih =>
      intro p r hnd hmem
      have hndtail := (List.nodup_cons.1 hnd).2
      rcases List.mem_cons.1 hmem with heq | hmem'
      · subst heq
        show runLightCompletions n now (refreshLightStep n now m0 _) rest = _
        have hstep : refreshLightStep n now m0
            { stamp := n, prev := p, outcome := .ok r } =
            insertOrUpdateSorted now (refreshLightLoop m0 r) [] := by
          rw [refreshLightStep]
          exact if_pos rfl
        rw [hstep]
        refine lightCompletions_stale_noop n now rest _ ?_
        intro c' hc' hc'n
        exact (List.nodup_cons.1 hnd).1
          (hc'n ▸ List.mem_map.2 ⟨c', hc', rfl⟩)
      · have hcn : c.stamp ≠ n := by
          intro hcn
          exact (List.nodup_cons.1 hnd).1
            (hcn ▸ List.mem_map.2
              ⟨{ stamp := n, prev := p, outcome := .ok r }, hmem', rfl⟩)
        show runLightCompletions n now (refreshLightStep n now m0 c) rest = _
        have hstep : refreshLightStep n now m0 c = m0 := by
          rw [refreshLightStep]
          cases hout : c.outcome with
          | ok recs => exact if_neg hcn
          | err => rfl
        rw [hstep]
        exact ih m0 p r hndtail hmem'
  · intro s c hne
    rw [selectMessageStep]
    exact if_neg hne
  · intro s0 cs
    induction cs generalizing s0 with
    | nil => intro o _ h; cases h
    | cons c rest ih =>
      intro o hnd hmem
      have hndtail := (List.nodup_cons.1 hnd).2
      rcases List.mem_cons.1 hmem with heq | hmem'
      · subst heq
        show runSelCompletions tok
          (selectMessageStep tok s0 { token := tok, outcome := o }) rest = _
        refine selCompletions_stale_noop tok rest _ ?_
        intro c' hc' hc'n
        exact (List.nodup_cons.1 hnd).1
          (hc'n ▸ List.mem_map.2 ⟨c', hc', rfl⟩)
      · have hcn : c.token ≠ tok := by
          intro hcn
          exact (List.nodup_cons.1 hnd).1
            (hcn ▸ List.mem_map.2
              ⟨{ token := tok, outcome := o }, hmem', rfl⟩)
        show runSelCompletions tok (selectMessageStep tok s0 c) rest = _
        have hstep : selectMessageStep tok s0 c = s0 := by
          rw [selectMessageStep]
          exact if_neg hcn
        rw [hstep]
        exact ih s0 o hndtail hmem'

theorem last_write_wins_by_issuance_witness :
    (completeStep 2 [sampleMsg]
        { stamp := 1, prev := [], outcome := .ok [] } = [sampleMsg]) ∧
    (runCompletions 1 []
        [{ stamp := 1, prev := [], outcome := .ok [sampleMsg] }] =
      refreshMerge [] [sampleMsg]) ∧
    (refreshLightStep 2 0 [sampleMsg]
        { stamp := 1, prev := [], outcome := .ok [] } = [sampleMsg]) ∧
    (runLightCompletions 1 0 []
        [{ stamp := 1, prev := [], outcome := .ok [sampleMsg] }] =
      insertOrUpdateSorted 0 (refreshLightLoop [] [sampleMsg]) []) ∧
    (selectMessageStep 2 { selectedMessage := none, isLoadingMessage := true }
        { token := 1, outcome := .err } =
      { selectedMessage := none, isLoadingMessage := true }) ∧
    (runSelCompletions 1 { selectedMessage := none, isLoadingMessage := false }
        [{ token := 1, outcome := .ok sampleMsg }] =
      selectMessageStep 1 { selectedMessage := none, isLoadingMessage := false }
        { token := 1, outcome := .ok sampleMsg }) :=
  ⟨(last_write_wins_by_issuance 2 2 0).1 [sampleMsg] _ [] rfl (by decide),
   (last_write_wins_by_issuance 1 1 0).2.1 [] _ [] [sampleMsg]
    (by
      intro c hc
      rw [List.mem_singleton] at hc
      subst hc
      exact ⟨[sampleMsg], rfl⟩)
    (by simp)
    (List.mem_singleton.2 rfl),
   (last_write_wins_by_issuance 2 2 0).2.2.1 [sampleMsg] _ (Or.inr (by decide)),
   (last_write_wins_by_issuance 1 1 0).2.2.2.1 [] _ [] [sampleMsg]
    (by simp) (List.mem_singleton.2 rfl),
   (last_write_wins_by_issuance 2 2 0).2.2.2.2.1 _ _ (by decide),
   (last_write_wins_by_issuance 1 1 0).2.2.2.2.2 _ _ (.ok sampleMsg)
    (by simp) (List.mem_singleton.2 rfl)⟩

/-- C2 counterexample: two `refreshMessages` calls are issued from the empty
list (stamps 1 then 2, latest counter 2); request 2 resolves first and is
applied, then request 1 rejects, and its `catch` restores the stale empty
snapshot without a stamp check.  The final list is not the latest-issued
request's result. -/
theorem stale_error_clobbers_latest_counterexample :
    runCompletions 2 []
      [{ stamp := 2, prev := [], outcome := .ok [sampleMsg] },
       { stamp := 1, prev := [], outcome := .err }] = [] ∧
    refreshMerge [] [sampleMsg] = [sampleMsg] ∧
    ([] : List Msg) ≠ [sampleMsg] := by
  decide

theorem getField_setField (k k' : String) (v' : JVal) :
    ∀ t : List (String × JVal),
      getField (setField t k' v') k =
        if k' = k then some v' else getField t k := by
  intro t
  induction t with
  | nil =>
    by_cases h : k' = k <;> simp [setField, getField, h]
  | cons p t ih =>
    obtain ⟨a, b⟩ := p
    by_cases ha : a = k'
    · by_cases h : k' = k <;> simp [setField, getField, ha, h]
    · by_cases hak : a = k
      · have h : ¬ k' = k := fun he => ha (he ▸ hak)
        have h2 : ¬ k = k' := fun he => h he.symm
        simp [setField, getField, ha, hak, h, h2]
      · simp [setField, getField, ha, hak, ih]

theorem getField_mergeLoop_of_not_mem (k : String) :
    ∀ (inc t : List (String × JVal)),
      k ∉ inc.map Prod.fst →
      getField (inc.foldl
        (fun t p => if keepIncoming p.2 then setField t p.1 p.2 else t) t) k =
      getField t k := by
  intro inc
  induction inc with
  | nil => intro t _; rfl
  | cons p rest ih =>
    intro t hk
    rw [List.map_cons] at hk
    have hk1 : ¬ p.1 = k := fun he => hk (he ▸ List.mem_cons_self _ _)
    have hk2 : k ∉ rest.map Prod.fst := fun hm => hk (List.mem_cons_of_mem _ hm)
    show getField (rest.foldl _
      (if keepIncoming p.2 then setField t p.1 p.2 else t)) k = getField t k
    rw [ih _ hk2]
    by_cases hkeep : keepIncoming p.2 = true
    · rw [if_pos hkeep, getField_setField, if_neg hk1]
    · rw [if_neg hkeep]

theorem getField_mergeLoop_found (k : String) :
    ∀ (inc target : List (String × JVal)) (v : JVal),
      (inc.map Prod.fst).Nodup →
      getField inc k = some v →
      getField (safeMergeMessage target (some inc)) k =
        if keepIncoming v then some v else getField target k := by
  intro inc
  induction inc with
  | nil => intro target v _ hv; cases hv
  | cons p rest ih =>
    intro target v hnd hv
    obtain ⟨a, b⟩ := p
    rw [List.map_cons] at hnd
    obtain ⟨hhd, htl⟩ := List.nodup_cons.1 hnd
    show getField (rest.foldl _
      (if keepIncoming b then setField target a b else target)) k = _
    by_cases hak : a = k
    · rw [getField, if_pos hak] at hv
      cases hv
      have hrest : k ∉ rest.map Prod.fst := hak ▸ hhd
      rw [getField_mergeLoop_of_not_mem k rest _ hrest]
      by_cases hkeep : keepIncoming v = true
      · rw [if_pos hkeep, if_pos hkeep, getField_setField, if_pos hak]
      · rw [if_neg hkeep, if_neg hkeep]
    · rw [getField, if_neg hak] at hv
      have htarget : getField
          (if keepIncoming b then setField target a b else target) k =
          getField target k := by
        by_cases hkeep : keepIncoming b = true
        · rw [if_pos hkeep, getField_setField, if_neg hak]
        · rw [if_neg hkeep]
      show getField (safeMergeMessage
        (if keepIncoming b then setField target a b else target) (some rest)) k = _
      rw [ih _ v htl hv, htarget]

theorem getField_mergeLoop_missing (k : String) :
    ∀ (inc target : List (String × JVal)),
      getField inc k = none →
      getField (safeMergeMessage target (some inc)) k = getField target k := by
  intro inc
  induction inc with
  | nil => intro target _; rfl
  | cons p rest ih =>
    intro target hv
    obtain ⟨a, b⟩ := p
    rw [getField] at hv
    by_cases hak : a = k
    · rw [if_pos hak] at hv; cases hv
    · rw [if_neg hak] at hv
      have htarget : getField
          (if keepIncoming b then setField target a b else target) k =
          getField target k := by
        by_cases hkeep : keepIncoming b = true
        · rw [if_pos hkeep, getField_setField, if_neg hak]
        · rw [if_neg hkeep]
      show getField (safeMergeMessage
        (if keepIncoming b then setField target a b else target) (some rest)) k = _
      rw [ih _ hv, htarget]

/-- C9: merging an incoming message record into a cached one never erases
cached data: for every key, if the incoming record binds it to `undefined`,
`null`, or a string that trims to empty (so `keepIncoming` is false),
`_safeMergeMessage` leaves the target's value for that key unchanged; if it
binds it to any other value, the target's value is overwritten with it; and
keys the incoming record does not bind — as well as the whole target when
`incoming` is falsy — are not modified. -/
theorem safe_merge_never_erases (target inc : List (String × JVal))
    (k : String) :
    safeMergeMessage target none = target ∧
    ((inc.map Prod.fst).Nodup → ∀ v, getField inc k = some v →
      getField (safeMergeMessage target (some inc)) k =
        if keepIncoming v then some v else getField target k) ∧
    (getField inc k = none →
      getField (safeMergeMessage target (some inc)) k = getField target k) :=
  ⟨rfl,
   fun hnd v hv => getField_mergeLoop_found k inc target v hnd hv,
   fun hv => getField_mergeLoop_missing k inc target hv⟩

theorem safe_merge_never_erases_witness :
    (getField (safeMergeMessage [("subject", JVal.str "hello")]
        (some [("subject", JVal.jnull), ("body", JVal.str "text")])) "subject" =
      if keepIncoming JVal.jnull then some JVal.jnull
      else getField [("subject", JVal.str "hello")] "subject") ∧
    (getField (safeMergeMessage [("subject", JVal.str "hello")]
        (some [("body", JVal.str "text")])) "subject" =
      getField [("subject", JVal.str "hello")] "subject") :=
  ⟨(safe_merge_never_erases [("subject", JVal.str "hello")]
      [("subject", JVal.jnull), ("body", JVal.str "text")] "subject").2.1
    (by decide) JVal.jnull (by decide),
   (safe_merge_never_erases [("subject", JVal.str "hello")]
      [("body", JVal.str "text")] "subject").2.2 (by decide)⟩

mutual

theorem bumpFolder_ok (fid delta : Int) :
    ∀ f : Folder, folderOk f = true → folderOk (bumpFolder fid delta f).1 = true
  | .node i u cs, h => by
    rw [folderOk, Bool.and_eq_true] at h
    obtain ⟨h1, h2⟩ := h
    rw [bumpFolder]
    by_cases hid : i = fid
    · rw [if_pos hid]
      show folderOk (Folder.node i (max 0 (u + delta)) cs) = true
      rw [folderOk, Bool.and_eq_true]
      exact ⟨decide_eq_true (le_max_left 0 _), h2⟩
    · rw [if_neg hid]
      have hforest := bumpForest_ok fid delta cs h2
      rcases hbf : bumpForest fid delta cs with ⟨cs', found, changed⟩
      rw [hbf] at hforest
      show folderOk (Folder.node i u cs') = true
      rw [folderOk, Bool.and_eq_true]
      exact ⟨h1, hforest⟩

theorem bumpForest_ok (fid delta : Int) :
    ∀ fs : Forest, forestOk fs = true → forestOk (bumpForest fid delta fs).1 = true
  | .nil, _ => rfl
  | .cons f fs, h => by
    rw [forestOk, Bool.and_eq_true] at h
    obtain ⟨h1, h2⟩ := h
    have hf := bumpFolder_ok fid delta f h1
    rw [bumpForest]
    rcases hbf : bumpFolder fid delta f with ⟨f', found, changed⟩
    rw [hbf] at hf
    cases found
    · have hfs := bumpForest_ok fid delta fs h2
      rcases hbs : bumpForest fid delta fs with ⟨fs', found', changed'⟩
      rw [hbs] at hfs
      show forestOk (Forest.cons f' fs') = true
      rw [forestOk, Bool.and_eq_true]
      exact ⟨hf, hfs⟩
    · show forestOk (Forest.cons f' fs) = true
      rw [forestOk, Bool.and_eq_true]
      exact ⟨hf, h2⟩

end

/-- C10: a folder's unread counter never becomes negative: the walk of
`_bumpFolderUnread` clamps the touched folder's updated count at zero
(`next = Math.max(0, cur + delta)`), so every operation that adjusts unread
counters through it — opening an unread message (`selectMessage`, delta `-1`),
marking messages read (`markSelectedAsRead`, a negative delta), deleting
messages — preserves `unread_count ≥ 0` for every folder in the folder
tree. -/
theorem folder_unread_never_negative (fid delta : Int) (acc : Option Int)
    (tree : Forest) :
    (forestOk tree = true →
      forestOk (bumpFolderUnread acc tree fid delta).1 = true) ∧
    (∀ (u : Int) (cs : Forest),
      bumpFolder fid delta (.node fid u cs) =
        (.node fid (max 0 (u + delta)) cs, true,
          decide (¬ u = max 0 (u + delta)))) := by
  constructor
  · intro h
    unfold bumpFolderUnread
    by_cases hd : delta = 0
    · rw [if_pos hd]; exact h
    · rw [if_neg hd]
      cases acc with
      | none => exact h
      | some a =>
        have hok := bumpForest_ok fid delta tree h
        rcases hbf : bumpForest fid delta tree with ⟨t', found, changed⟩
        rw [hbf] at hok
        exact hok
  · intro u cs
    rw [bumpFolder]
    exact if_pos rfl

theorem folder_unread_never_negative_witness :
    forestOk (bumpFolderUnread (some 1)
      (.cons (.node 5 0 .nil) .nil) 5 (-1)).1 = true :=
  (folder_unread_never_negative 5 (-1) (some 1)
    (.cons (.node 5 0 .nil) .nil)).1 (by rfl)

/-- C7: each keystroke in the mail-client search box stores the query and
invokes the debounced `onDelayedSearch`, which wraps `refreshMessages` with an
800 ms debounce; `refreshLight` is wrapped with a 400 ms debounce.  Under the
debounce semantics, the wrapped callback runs `delay` after a trigger that is
followed by no further trigger for the whole interval, and never runs for a
trigger that is followed by another trigger strictly within the interval. -/
theorem debounced_search_quiescence (s : SearchBox) (query : String)
    (time : Int) (delay : Int) (triggers : List Int) (t u : Int) :
    (onSearchInput s query time).searchQuery = query ∧
    (onSearchInput s query time).triggers = s.triggers ++ [time] ∧
    searchDebounceMs = 800 ∧ refreshLightDebounceMs = 400 ∧
    (t ∈ triggers → (∀ v ∈ triggers, v ≤ t) →
      t + delay ∈ Debounce.fireTimes delay triggers) ∧
    (t ∈ triggers → u ∈ triggers → t < u → u < t + delay →
      t + delay ∉ Debounce.fireTimes delay triggers) := by
  refine ⟨rfl, rfl, rfl, rfl, ?_, ?_⟩
  · intro ht hall
    refine List.mem_map.2 ⟨t, ?_, rfl⟩
    refine List.mem_filter.2 ⟨ht, ?_⟩
    refine List.all_eq_true.2 fun v hv => ?_
    simp only [Bool.or_eq_true, decide_eq_true_eq]
    exact Or.inl (hall v hv)
  · intro ht hu htu hut hmem
    obtain ⟨t', ht', heq⟩ := List.mem_map.1 hmem
    have ht'' : t' = t := by omega
    subst ht''
    have hp := (List.mem_filter.1 ht').2
    have hall := List.all_eq_true.1 hp u hu
    simp only [Bool.or_eq_true, decide_eq_true_eq] at hall
    rcases hall with h1 | h1
    · omega
    · omega

theorem debounced_search_quiescence_witness :
    ((8 : Int) + 800 ∈ Debounce.fireTimes 800 [0, 8]) ∧
    ((0 : Int) + 800 ∉ Debounce.fireTimes 800 [0, 8]) :=
  ⟨(debounced_search_quiescence ⟨"", []⟩ "" 0 800 [0, 8] 8 0).2.2.2.2.1
      (by decide) (by decide),
   (debounced_search_quiescence ⟨"", []⟩ "" 0 800 [0, 8] 0 8).2.2.2.2.2
      (by decide) (by decide) (by decide) (by decide)⟩

end MailDesk

/-- C4 counterexample: the tracking-lookup handler
`OrderTrackingWidget._onDeliveryTracking` attaches no rejection handler to its
`rpc("/tracking/details/update", ...)` call, so a failing RPC is neither
caught, nor logged, nor surfaced in a notification — it escapes the widget's
handler as an unhandled rejection. -/
theorem tracking_rpc_rejection_escapes :
    DeliveryTracking.onDeliveryTracking (.error ()) = .error () := rfl

/-- C4 (amended): the cited mail-refresh and payment-fee handlers catch their
RPC failures and return normally (logging or notifying only), but the
delivery-tracking widget's RPC invocations attach no rejection handler, so
their rejections escape the widget's handler unhandled. -/
theorem rpc_failures_handled_locally_except_tracking :
    (∀ (s : MailDesk.RMState) (r : Except Unit MailDesk.RpcPayload),
      ∃ s', MailDesk.refreshMessagesHandler s r = .ok s') ∧
    (∀ (w : PaymentFee.Widget) (r : Except Unit Bool),
      ∃ p, PaymentFee.updatePaymentFee w r = .ok p) ∧
    (∀ (w : PaymentFee.Widget) (r : Except Unit Unit),
      ∃ p, PaymentFee.portalUpdatePaymentFee w r = .ok p) ∧
    (∀ e : Unit, DeliveryTracking.onDeliveryTracking (.error e) = .error e) := by
  refine ⟨?_, ?_, ?_, fun e => rfl⟩
  · intro s r
    rcases r with e | payload
    · exact ⟨_, rfl⟩
    · exact ⟨_, rfl⟩
  · intro w r
    obtain ⟨f⟩ := w
    cases f
    · rcases r with e | b
      · exact ⟨_, rfl⟩
      · cases b
        · exact ⟨_, rfl⟩
        · exact ⟨_, rfl⟩
    · exact ⟨_, rfl⟩
  · intro w r
    obtain ⟨f⟩ := w
    cases f
    · rcases r with e | u
      · exact ⟨_, rfl⟩
      · exact ⟨_, rfl⟩
    · exact ⟨_, rfl⟩

end SkydellMedical
